import Mathlib

/-!
Verification of the Mimirion version-control core against its specification.

The C++ sources (diff.cpp, commit.cpp, file_tracker.cpp) are shallowly
embedded below: strings are modelled as lists of characters, the filesystem
and the in-memory maps as association lists, and fallible operations return
Option or a success flag, mirroring the bool/empty-string conventions of the
source.  Cryptographic hashing (utils::sha256) is kept abstract as a function
parameter, matching the spec, which treats it as a black-box collaborator.
-/

namespace Mimirion

/-- Model of std::string: a list of characters. -/
abbrev Str := List Char

/-- Conversion helper for writing concrete Str values from Lean literals. -/
def s2l (s : String) : Str := s.data

/-! ## Diff engine data model (diff.hpp) -/

/-- Model of struct DiffHunk: four int fields and the tagged diff lines. -/
structure DiffHunk where
  oldStart : Int
  oldCount : Int
  newStart : Int
  newCount : Int
  lines : List Str
  deriving DecidableEq, Repr, Inhabited

/-- Model of struct FileDiff. -/
structure FileDiff where
  oldFile : Str
  newFile : Str
  hunks : List DiffHunk
  deriving DecidableEq, Repr, Inhabited

/-! ## DiffEngine::splitLines (diff.cpp:231)

The C++ reads lines with std::getline: each call consumes characters up to
and including the next newline (or up to end of input), and fails when the
input is exhausted.  Consequently a trailing final newline produces no extra
empty line, while a lone newline produces one empty line. -/

/-- One std::getline step loop: `acc` is the (reversed) line read so far. -/
def splitLinesGo (acc : Str) : Str → List Str
  | [] => [acc.reverse]
  | c :: cs =>
    if c = '\n' then
      acc.reverse :: (match cs with
        | [] => []
        | c' :: cs' => splitLinesGo [] (c' :: cs'))
    else
      splitLinesGo (c :: acc) cs

/-- Model of DiffEngine::splitLines: getline until the stream is exhausted. -/
def splitLines (content : Str) : List Str :=
  match content with
  | [] => []
  | c :: cs => splitLinesGo [] (c :: cs)

/-! ## DiffEngine::computeHunks (diff.cpp:243) -/

/-- Model of the line-walk loop of computeHunks (diff.cpp:298-314): positional
scan emitting a context line on a match, otherwise an insertion consuming the
new side first, and deletions once the new side is exhausted. -/
def walkLines : List Str → List Str → List Str
  | olds, [] => olds.map (fun o => '-' :: o)
  | olds, n :: ns =>
    match olds with
    | [] => ('+' :: n) :: walkLines [] ns
    | o :: os =>
      if o = n then (' ' :: o) :: walkLines os ns
      else ('+' :: n) :: walkLines (o :: os) ns

/-- Model of the first-mismatch search of the AddedLines special case
(diff.cpp:262-268): index of the first position where the two line lists
disagree, scanning positions of the old list that also exist in the new. -/
def findMismatch : List Str → List Str → Nat → Option Nat
  | [], _, _ => none
  | _ :: _, [], _ => none
  | o :: os, n :: ns, i => if o ≠ n then some i else findMismatch os ns (i + 1)

/-- Model of DiffEngine::computeHunks.  The contextLines parameter is
defaulted to 3 when non-positive and is otherwise unused by the source. -/
def computeHunks (oldLines newLines : List Str) (contextLines : Int) : List DiffHunk :=
  let _ := if contextLines ≤ 0 then (3 : Int) else contextLines
  if oldLines = newLines then []
  else if newLines.length = oldLines.length + 1 then
    match findMismatch oldLines newLines 0 with
    | some i =>
      [{ oldStart := (i : Int), oldCount := 2, newStart := (i : Int), newCount := 3,
         lines :=
           (if 0 < i then [' ' :: (oldLines.getD (i - 1) [])] else []) ++
           ['-' :: (oldLines.getD i []), '+' :: (newLines.getD i []),
            ' ' :: (oldLines.getD i [])] }]
    | none =>
      [{ oldStart := 1, oldCount := (oldLines.length : Int), newStart := 1,
         newCount := (newLines.length : Int), lines := walkLines oldLines newLines }]
  else
    [{ oldStart := 1, oldCount := (oldLines.length : Int), newStart := 1,
       newCount := (newLines.length : Int), lines := walkLines oldLines newLines }]

/-- Model of DiffEngine::generateDiffFromStrings (diff.cpp:72). -/
def generateDiffFromStrings (oldContent newContent : Str) (contextLines : Int) : FileDiff :=
  { oldFile := s2l "a", newFile := s2l "b",
    hunks := computeHunks (splitLines oldContent) (splitLines newContent) contextLines }

/-! ## DiffEngine::applyDiff (diff.cpp:90) -/

/-- Model of the replacement-line collection inside applyDiff
(diff.cpp:108-117): keep stripped insertion and context lines, drop deletion
lines and anything else. -/
def hunkNewLines (taggedLines : List Str) : List Str :=
  taggedLines.filterMap fun line =>
    match line with
    | [] => none
    | c :: rest =>
      if c = '-' then none
      else if c = '+' then some rest
      else if c = ' ' then some rest
      else none

/-- Model of one loop iteration of applyDiff (diff.cpp:96-121): bounds check,
erase the old range, insert the replacement lines at the same position. -/
def applyHunk (h : DiffHunk) (lines : List Str) : Option (List Str) :=
  if (lines.length : Int) < h.oldStart then none
  else
    let k := (h.oldStart - 1).toNat
    let afterErase := lines.take k ++ lines.drop (k + h.oldCount.toNat)
    some (afterErase.take k ++ hunkNewLines h.lines ++ afterErase.drop k)

/-- Model of the hunk loop of applyDiff: hunks are replayed in the order they
appear in the FileDiff; the first failing bounds check aborts the whole call. -/
def applyHunks : List DiffHunk → List Str → Option (List Str)
  | [], lines => some lines
  | h :: hs, lines =>
    match applyHunk h lines with
    | none => none
    | some lines' => applyHunks hs lines'

/-- Model of the output join of applyDiff (diff.cpp:124-130): lines separated
by newlines, with no newline after the last line. -/
def joinLines : List Str → Str
  | [] => []
  | [l] => l
  | l :: l' :: ls => l ++ '\n' :: joinLines (l' :: ls)

/-- Model of DiffEngine::applyDiff.  The target file content is the second
argument; the result is the content written back on success, and none when
the function returns false before writing (the file is then unchanged). -/
def applyDiff (diff : FileDiff) (content : Str) : Option Str :=
  match applyHunks diff.hunks (splitLines content) with
  | none => none
  | some lines =>
    let finalContent := joinLines lines
    some (if content ≠ [] ∧ content.getLast? = some '\n' ∧
             finalContent ≠ [] ∧ finalContent.getLast? ≠ some '\n'
          then finalContent ++ ['\n'] else finalContent)

/-! ## Spec-modelled ascending patch replay (spec section 4.4)

The spec states that applyPatch replays hunks in ascending oldStart order.
The following definition follows the spec words (sort the hunks by oldStart,
then replay); it is compared against the source-derived applyDiff above. -/

/-- Insertion step for the ascending sort of hunks by oldStart. -/
def insertByOldStart (h : DiffHunk) : List DiffHunk → List DiffHunk
  | [] => [h]
  | h' :: hs =>
    if h.oldStart ≤ h'.oldStart then h :: h' :: hs else h' :: insertByOldStart h hs

/-- Sort a hunk list into ascending oldStart order. -/
def sortByOldStart (hs : List DiffHunk) : List DiffHunk :=
  hs.foldr insertByOldStart []

/-- Modelled from the spec: patch application that replays hunks in ascending
oldStart order, as section 4.4 prescribes, rather than in list order. -/
def applyDiffAscending (diff : FileDiff) (content : Str) : Option Str :=
  applyDiff { diff with hunks := sortByOldStart diff.hunks } content

/-! ## Commit manager (commit.cpp) -/

/-- Model of struct CommitInfo (commit.hpp).  The std::chrono timestamp is
abstracted by the string utils::formatTimestamp produces for it, since the
source only ever uses the timestamp through that formatter.  fileHashes is an
association list standing for the std::map from path to blob hash. -/
structure CommitInfo where
  hash : Str
  message : Str
  author : Str
  email : Str
  timestamp : Str
  parentHashes : List Str
  fileHashes : List (Str × Str)
  deriving DecidableEq, Repr, Inhabited

/-- Association-list lookup, modelling map::find. -/
def lookupA {α : Type} (m : List (Str × α)) (k : Str) : Option α :=
  match m with
  | [] => none
  | (k', v) :: rest => if k' = k then some v else lookupA rest k

/-- Association-list insert-or-assign, modelling map::operator[] assignment. -/
def insertA {α : Type} (m : List (Str × α)) (k : Str) (v : α) : List (Str × α) :=
  match m with
  | [] => [(k, v)]
  | (k', v') :: rest =>
    if k' = k then (k, v) :: rest else (k', v') :: insertA rest k v

/-- Model of the hash preimage built by CommitManager::generateCommitHash
(commit.cpp:155-176): a tree line with the hardcoded dummy hash, parent
lines, author and committer lines, then a blank line and the message.  The
commit hash is utils::sha256 of this string. -/
def generateCommitHashInput (c : CommitInfo) : Str :=
  s2l "tree " ++ (s2l "dummy-tree-hash" ++ (['\n'] ++
  ((c.parentHashes.map (fun p => s2l "parent " ++ p ++ ['\n'])).flatten ++
  (s2l "author " ++ c.author ++ s2l " <" ++ c.email ++ s2l "> " ++ c.timestamp ++ ['\n'] ++
  s2l "committer " ++ c.author ++ s2l " <" ++ c.email ++ s2l "> " ++ c.timestamp ++ ['\n'] ++
  ['\n'] ++ c.message ++ ['\n']))))

/-- Model of CommitManager::generateCommitHash, with utils::sha256 abstract. -/
def generateCommitHash (sha256 : Str → Str) (c : CommitInfo) : Str :=
  sha256 (generateCommitHashInput c)

/-- Model of the object file content written by CommitManager::saveCommitObject
(commit.cpp:178-221): the commit header line, parent lines, author and
committer lines, blank line, message, then the files table. -/
def saveCommitObjectContent (c : CommitInfo) : Str :=
  s2l "commit " ++ (c.hash ++ (['\n'] ++
  ((c.parentHashes.map (fun p => s2l "parent " ++ p ++ ['\n'])).flatten ++
  (s2l "author " ++ c.author ++ s2l " <" ++ c.email ++ s2l "> " ++ c.timestamp ++ ['\n'] ++
  s2l "committer " ++ c.author ++ s2l " <" ++ c.email ++ s2l "> " ++ c.timestamp ++ ['\n'] ++
  ['\n'] ++ c.message ++ ['\n'] ++
  ['\n'] ++ s2l "files:" ++ ['\n'] ++
  (c.fileHashes.map (fun fh => fh.1 ++ ['\t'] ++ fh.2 ++ ['\n'])).flatten))))

/-- Model of the on-disk state a CommitManager mutates: the in-memory HEAD,
the stored objects (hash to object file content), and the master branch ref
file (refs/heads/master). -/
structure CommitState where
  currentHead : Str
  objects : List (Str × Str)
  masterRef : Option Str
  deriving DecidableEq, Repr, Inhabited

/-- Model of the message cleanup loop of createCommit (commit.cpp:26-29):
strip trailing newline and carriage-return characters. -/
def stripTrailingNewlines (s : Str) : Str :=
  (s.reverse.dropWhile (fun ch => ch = '\n' ∨ ch = '\r')).reverse

/-- Model of CommitManager::createCommit (commit.cpp:15-68).  The identity
provider (utils::getUserName/getUserEmail) and formatted clock reading are
passed in as author, email and timestamp; sha256 is the abstract hash.  The
returned Str is the commit hash, empty on failure, exactly as in the source;
the returned state carries the updated HEAD, object store and branch ref. -/
def createCommit (sha256 : Str → Str) (author email timestamp : Str)
    (st : CommitState) (message : Str) (stagedFiles : List Str) :
    Str × CommitState :=
  if stagedFiles = [] then ([], st)
  else
    let c0 : CommitInfo :=
      { hash := [],
        message := stripTrailingNewlines message,
        author := author, email := email, timestamp := timestamp,
        parentHashes := if st.currentHead ≠ [] then [st.currentHead] else [],
        fileHashes := stagedFiles.foldl (fun m f => insertA m f (s2l "dummy-file-hash")) [] }
    let h := generateCommitHash sha256 c0
    let c : CommitInfo := { c0 with hash := h }
    let st' : CommitState :=
      { currentHead := h,
        objects := insertA st.objects h (saveCommitObjectContent c),
        masterRef := some h }
    (h, st')

/-! ## CommitManager history traversal (commit.cpp:96-123) -/

/-- The empty CommitInfo a failed load returns (default-constructed). -/
def emptyCommitInfo : CommitInfo :=
  { hash := [], message := [], author := [], email := [], timestamp := [],
    parentHashes := [], fileHashes := [] }

/-- Model of CommitManager::loadCommitObject (commit.cpp:223-308) at the
level of the object map: hashes shorter than two characters or absent from
the store yield the empty commit; otherwise the stored commit record is
returned (its hash field set to the looked-up hash, as the source does). -/
def loadCommitObject (store : List (Str × CommitInfo)) (hash : Str) : CommitInfo :=
  if hash.length < 2 then emptyCommitInfo
  else
    match lookupA store hash with
    | none => emptyCommitInfo
    | some c => c

/-- Model of the while loop of CommitManager::getHistory, with an explicit
fuel argument standing for the unbounded C++ loop; count is the number of
commits already collected. -/
def getHistoryLoop (store : List (Str × CommitInfo)) (maxCount : Nat) :
    Nat → Str → Nat → List CommitInfo
  | 0, _, _ => []
  | fuel + 1, current, count =>
    if current = [] then []
    else if ¬ (maxCount = 0 ∨ count < maxCount) then []
    else
      let commit := loadCommitObject store current
      if commit.hash = [] then []
      else if commit.parentHashes = [] then [commit]
      else commit :: getHistoryLoop store maxCount fuel (commit.parentHashes.headD []) (count + 1)

/-- Model of CommitManager::getHistory (commit.cpp:96-123): walk from HEAD
following only the first parent hash of each commit. -/
def getHistory (store : List (Str × CommitInfo)) (currentHead : Str)
    (maxCount : Nat) (fuel : Nat) : List CommitInfo :=
  getHistoryLoop store maxCount fuel currentHead 0

/-- The first-parent chain predicate: cs is exactly the chain of commits
reachable from cur by repeatedly following the first parent, ending at a
root commit (one with no parents); an empty chain corresponds to an empty
HEAD.  Each element must be stored under its own non-empty hash. -/
def isFirstParentChain (store : List (Str × CommitInfo)) : Str → List CommitInfo → Bool
  | cur, [] => cur == []
  | cur, c :: rest =>
    cur != [] && loadCommitObject store cur == c && c.hash == cur &&
    (match rest with
     | [] => c.parentHashes == []
     | _ :: _ => c.parentHashes != [] &&
         isFirstParentChain store (c.parentHashes.headD []) rest)

/-! ## File tracker (file_tracker.cpp)

The working tree is modelled as an association list from relative path to
the sha256 of the file content on disk (utils::sha256File composed with the
directory walk), already restricted to regular, non-ignored files outside
the metadata directory, which is exactly the set the source iterates over.
The unordered_map of FileInfo entries is modelled as an association list. -/

/-- Model of enum class FileStatus (file_tracker.hpp). -/
inductive FileStatus where
  | untracked
  | modified
  | staged
  | committed
  | deleted
  deriving DecidableEq, Repr, Inhabited

/-- Model of struct FileInfo (file_tracker.hpp). -/
structure FileInfo where
  path : Str
  hash : Str
  lastCommitHash : Str
  status : FileStatus
  deriving DecidableEq, Repr, Inhabited

/-- Model of the per-file body of the scan loop in FileTracker::updateStatus
(file_tracker.cpp:40-61): hash the file, copy lastCommitHash from the old
entry when the path was present before, and classify. -/
def scanOneFile (oldFiles : List (Str × FileInfo)) (p h : Str) : FileInfo :=
  match lookupA oldFiles p with
  | some old =>
    { path := p, hash := h, lastCommitHash := old.lastCommitHash,
      status := if h ≠ old.lastCommitHash then .modified else .committed }
  | none =>
    { path := p, hash := h, lastCommitHash := [], status := .untracked }

/-- Model of FileTracker::updateStatus (file_tracker.cpp:15-72): rebuild the
map from the disk scan, then re-add previously tracked paths that are absent
from disk with status DELETED. -/
def updateStatus (disk : List (Str × Str)) (files : List (Str × FileInfo)) :
    List (Str × FileInfo) :=
  let oldFiles := files
  let scanned := disk.foldl (fun acc ph => insertA acc ph.1 (scanOneFile oldFiles ph.1 ph.2)) []
  oldFiles.foldl
    (fun acc kv =>
      match lookupA acc kv.1 with
      | some _ => acc
      | none => insertA acc kv.1 { kv.2 with status := .deleted })
    scanned

/-- Model of FileTracker::stageFile (file_tracker.cpp:91-121): fail when the
path does not exist on disk; otherwise snapshot the current hash and set
status STAGED, creating the entry if needed. -/
def stageFile (disk : List (Str × Str)) (files : List (Str × FileInfo)) (path : Str) :
    Bool × List (Str × FileInfo) :=
  match lookupA disk path with
  | none => (false, files)
  | some h =>
    match lookupA files path with
    | some fi => (true, insertA files path { fi with hash := h, status := .staged })
    | none =>
      (true, insertA files path
        { path := path, hash := h, lastCommitHash := [], status := .staged })

/-- Model of FileTracker::unstageFile (file_tracker.cpp:123-149): fail unless
the entry exists with status STAGED; otherwise revert to UNTRACKED when there
is no last-commit hash, else to COMMITTED or MODIFIED by comparing the hash
currently on disk against the last-commit hash. -/
def unstageFile (disk : List (Str × Str)) (files : List (Str × FileInfo)) (path : Str) :
    Bool × List (Str × FileInfo) :=
  match lookupA files path with
  | none => (false, files)
  | some fi =>
    if fi.status ≠ .staged then (false, files)
    else if fi.lastCommitHash = [] then
      (true, insertA files path { fi with status := .untracked })
    else
      let currentHash := (lookupA disk path).getD []
      if currentHash = fi.lastCommitHash then
        (true, insertA files path { fi with status := .committed })
      else
        (true, insertA files path { fi with status := .modified })

/-! ## DiffEngine::diffToString (diff.cpp:142) and parseDiff (diff.cpp:163) -/

/-- Decimal digit sequence printed for a Nat by operator<< on int. -/
def natDigits (n : Nat) : Str :=
  if _ : n < 10 then [Nat.digitChar n]
  else natDigits (n / 10) ++ [Nat.digitChar (n % 10)]
  termination_by n
  decreasing_by exact Nat.div_lt_self (by omega) (by omega)

/-- Characters printed for an int by operator<<. -/
def intToChars (i : Int) : Str :=
  if i < 0 then '-' :: natDigits (-i).toNat else natDigits i.toNat

/-- The hunk header line written by diffToString (diff.cpp:151-152). -/
def hunkHeaderStr (h : DiffHunk) : Str :=
  s2l "@@ -" ++ (intToChars h.oldStart ++ ([','] ++ (intToChars h.oldCount ++
  (s2l " +" ++ (intToChars h.newStart ++ ([','] ++ (intToChars h.newCount ++
  s2l " @@")))))))

/-- The lines diffToString writes, in order: the two header lines, then for
each hunk its header line followed by its tagged lines. -/
def serializedLines (d : FileDiff) : List Str :=
  (s2l "--- " ++ d.oldFile) :: (s2l "+++ " ++ d.newFile) ::
  (d.hunks.map (fun h => hunkHeaderStr h :: h.lines)).flatten

/-- Model of DiffEngine::diffToString: every stream insertion ends with
std::endl, so the output is each serialized line followed by a newline. -/
def diffToString (d : FileDiff) : Str :=
  ((serializedLines d).map (fun l => l ++ ['\n'])).flatten

/-- Model of substr(0, p.length) == p, the prefix tests of parseDiff. -/
def matchesAt (p l : Str) : Bool := l.take p.length == p

/-- Index of the first occurrence of a character, modelling string::find. -/
def charIndex (c : Char) : Str → Option Nat
  | [] => none
  | x :: xs => if x = c then some 0 else (charIndex c xs).map (· + 1)

/-- Model of string::find(char, pos): the C++ overload returns npos when pos
is already npos, hence the Option-valued position argument. -/
def findCharFrom (l : Str) (c : Char) (start : Option Nat) : Option Nat :=
  match start with
  | none => none
  | some i => (charIndex c (l.drop i)).map (· + i)

/-- Index of the first occurrence of a substring. -/
def findSub (pat : Str) : Str → Option Nat
  | [] => if pat = [] then some 0 else none
  | x :: xs => if matchesAt pat (x :: xs) then some 0 else (findSub pat xs).map (· + 1)

/-- Model of string::find(const string, pos). -/
def findStrFrom (l : Str) (pat : Str) (start : Option Nat) : Option Nat :=
  match start with
  | none => none
  | some i => (findSub pat (l.drop i)).map (· + i)

/-- Model of string::substr(pos, len). -/
def substr (l : Str) (pos len : Nat) : Str := (l.drop pos).take len

/-- Value of the longest digit prefix, or none when it is empty. -/
def digitsVal (l : Str) : Option Nat :=
  let ds := l.takeWhile Char.isDigit
  if ds = [] then none
  else some (ds.foldl (fun acc c => 10 * acc + (c.toNat - '0'.toNat)) 0)

/-- Model of std::stoi: skip leading whitespace, optional sign, then a
non-empty digit run; none models the std::invalid_argument exception. -/
def stoiModel (l : Str) : Option Int :=
  match l.dropWhile Char.isWhitespace with
  | [] => none
  | c :: rest =>
    if c = '-' then (digitsVal rest).map (fun n => -(n : Int))
    else if c = '+' then (digitsVal rest).map (fun n => (n : Int))
    else (digitsVal (c :: rest)).map (fun n => (n : Int))

/-- Outcome of the hunk-header parse in parseDiff: the npos checks at
diff.cpp:204-209 make it skip the line, a stoi failure raises an exception
that escapes parseDiff, and otherwise the four numbers are produced. -/
inductive HunkHeaderOutcome where
  | skip
  | thrown
  | ok (oldStart oldCount newStart newCount : Int)
  deriving DecidableEq, Repr

/-- Model of the hunk-header dissection of parseDiff (diff.cpp:197-215). -/
def parseHunkHeader (header : Str) : HunkHeaderOutcome :=
  let minusPos := findCharFrom header '-' (some 0)
  let commaPos1 := findCharFrom header ',' minusPos
  let plusPos := findCharFrom header '+' commaPos1
  let commaPos2 := findCharFrom header ',' plusPos
  let atPos := findStrFrom header (s2l " @@") commaPos2
  match minusPos, commaPos1, plusPos, commaPos2, atPos with
  | some mp, some c1, some pp, some c2, some ap =>
    match stoiModel (substr header (mp + 1) (c1 - mp - 1)),
          stoiModel (substr header (c1 + 1) (pp - c1 - 1)),
          stoiModel (substr header (pp + 1) (c2 - pp - 1)),
          stoiModel (substr header (c2 + 1) (ap - c2 - 1)) with
    | some a, some b, some c, some d => .ok a b c d
    | _, _, _, _ => .thrown
  | _, _, _, _, _ => .skip

/-- Model of the hunk loop of parseDiff (diff.cpp:187-226): skip lines that
do not look like hunk headers, and after a parsed header collect the
following lines up to the next header as the hunk body. -/
def parseHunks : List Str → Option (List DiffHunk)
  | [] => some []
  | l :: rest =>
    if !matchesAt (s2l "@@ ") l then parseHunks rest
    else
      match parseHunkHeader l with
      | .skip => parseHunks rest
      | .thrown => none
      | .ok a b c d =>
        let body := rest.takeWhile (fun x => !matchesAt (s2l "@@ ") x)
        let rest' := rest.dropWhile (fun x => !matchesAt (s2l "@@ ") x)
        (parseHunks rest').map
          (fun hs => { oldStart := a, oldCount := b, newStart := c, newCount := d,
                       lines := body } :: hs)
  termination_by lines => lines.length
  decreasing_by
  all_goals
    have hdw : ∀ (q : Str → Bool) (xs : List Str), (xs.dropWhile q).length ≤ xs.length := by
      intro q xs
      induction xs with
      | nil => simp
      | cons a t ih =>
        rw [List.dropWhile_cons]
        split
        · exact Nat.le_succ_of_le ih
        · simp
  all_goals simp only [List.length_cons]
  · omega
  · omega
  · exact Nat.lt_succ_of_le (hdw _ _)

/-- Model of DiffEngine::parseDiff.  The result is none exactly when a stoi
call inside the hunk loop throws; otherwise the FileDiff built the same way
as the source (header checks that fail return the partially filled diff). -/
def parseDiff (diffStr : Str) : Option FileDiff :=
  let lines := splitLines diffStr
  if lines.length < 2 then some { oldFile := [], newFile := [], hunks := [] }
  else
    let l0 := lines.getD 0 []
    let l1 := lines.getD 1 []
    if matchesAt (s2l "--- ") l0 then
      let old := l0.drop 4
      if matchesAt (s2l "+++ ") l1 then
        (parseHunks (lines.drop 2)).map
          (fun hs => { oldFile := old, newFile := l1.drop 4, hunks := hs })
      else some { oldFile := old, newFile := [], hunks := [] }
    else some { oldFile := [], newFile := [], hunks := [] }

/-! ## Well-formedness of a FileDiff (spec sections 3 and 4.4) -/

/-- A tagged diff line: context, insertion or deletion marker followed by
text without embedded newlines. -/
def isTaggedLine (l : Str) : Bool :=
  match l with
  | [] => false
  | c :: rest => (c == ' ' || c == '+' || c == '-') && !rest.contains '\n'

/-- Well-formed hunk: 1-based start positions, non-negative counts, tagged
lines. -/
def wfHunk (h : DiffHunk) : Bool :=
  (1 ≤ h.oldStart) && (0 ≤ h.oldCount) && (1 ≤ h.newStart) && (0 ≤ h.newCount) &&
  h.lines.all isTaggedLine

/-- Well-formed FileDiff: newline-free header paths and well-formed hunks. -/
def wfFileDiff (d : FileDiff) : Bool :=
  !d.oldFile.contains '\n' && !d.newFile.contains '\n' && d.hunks.all wfHunk

/-! ## Shared helper lemmas -/

/-- computeHunks on two equal line lists takes the identical-inputs early
return and produces no hunks. -/
theorem computeHunks_self (x : List Str) (contextLines : Int) :
    computeHunks x x contextLines = [] := by
  simp [computeHunks]

/-- Appending a final newline to a non-empty content that does not already
end in a newline does not change how getline splits it into lines. -/
theorem splitLinesGo_append_newline :
    ∀ (s : Str) (acc : Str), s ≠ [] → s.getLast? ≠ some '\n' →
      splitLinesGo acc (s ++ ['\n']) = splitLinesGo acc s := by
  intro s
  induction s with
  | nil => intro acc h _; exact absurd rfl h
  | cons c cs ih =>
    intro acc _ hlast
    by_cases hc : c = '\n'
    · subst hc
      cases cs with
      | nil => simp at hlast
      | cons d ds =>
        have hlast' : (d :: ds).getLast? ≠ some '\n' := by
          rw [List.getLast?_cons_cons] at hlast
          exact hlast
        have hrec : splitLinesGo [] (d :: (ds ++ ['\n'])) = splitLinesGo [] (d :: ds) :=
          ih [] (List.cons_ne_nil d ds) hlast'
        have l1 : splitLinesGo acc (('\n' :: d :: ds) ++ ['\n']) =
            acc.reverse :: splitLinesGo [] (d :: (ds ++ ['\n'])) := rfl
        have l2 : splitLinesGo acc ('\n' :: d :: ds) =
            acc.reverse :: splitLinesGo [] (d :: ds) := rfl
        rw [l1, l2, hrec]
    · cases cs with
      | nil => simp [splitLinesGo, hc]
      | cons d ds =>
        have hlast' : (d :: ds).getLast? ≠ some '\n' := by
          rw [List.getLast?_cons_cons] at hlast
          exact hlast
        have hrec : splitLinesGo (c :: acc) (d :: (ds ++ ['\n'])) =
            splitLinesGo (c :: acc) (d :: ds) :=
          ih (c :: acc) (List.cons_ne_nil d ds) hlast'
        show splitLinesGo acc (c :: (d :: (ds ++ ['\n']))) = splitLinesGo acc (c :: d :: ds)
        rw [splitLinesGo, splitLinesGo, if_neg hc, if_neg hc]
        exact hrec

/-- splitLines ignores a single appended trailing newline on non-empty
content not already ending in a newline. -/
theorem splitLines_append_newline (s : Str) (h1 : s ≠ []) (h2 : s.getLast? ≠ some '\n') :
    splitLines (s ++ ['\n']) = splitLines s := by
  cases s with
  | nil => exact absurd rfl h1
  | cons c cs =>
    simp only [List.cons_append, splitLines]
    have := splitLinesGo_append_newline (c :: cs) [] h1 h2
    simp only [List.cons_append] at this
    exact this

/-! ## Digit-printing helper lemmas for the serialization round trip -/

/-- natDigits always produces at least one character. -/
theorem natDigits_ne_nil (n : Nat) : natDigits n ≠ [] := by
  unfold natDigits
  split
  · simp
  · simp

/-- Nat.digitChar of a value below ten is a decimal digit character. -/
theorem digitChar_isDigit (n : Nat) (h : n < 10) : (Nat.digitChar n).isDigit = true := by
  interval_cases n <;> decide

/-- Numeric value encoded by Nat.digitChar. -/
theorem digitChar_val (n : Nat) (h : n < 10) :
    (Nat.digitChar n).toNat - '0'.toNat = n := by
  interval_cases n <;> decide

/-- Every character natDigits produces is a decimal digit. -/
theorem natDigits_all_digit (n : Nat) : ∀ c ∈ natDigits n, c.isDigit = true := by
  induction n using Nat.strong_induction_on with
  | _ n ih =>
    unfold natDigits
    split
    · intro c hc
      simp only [List.mem_singleton] at hc
      subst hc
      exact digitChar_isDigit n (by assumption)
    · intro c hc
      simp only [List.mem_append, List.mem_singleton] at hc
      rcases hc with hc | hc
      · exact ih (n / 10) (Nat.div_lt_self (by omega) (by omega)) c hc
      · subst hc
        exact digitChar_isDigit _ (Nat.mod_lt n (by omega))

/-- Reading back the digits natDigits printed recovers the number. -/
theorem natDigits_foldl (n : Nat) :
    (natDigits n).foldl (fun acc c => 10 * acc + (c.toNat - '0'.toNat)) 0 = n := by
  induction n using Nat.strong_induction_on with
  | _ n ih =>
    unfold natDigits
    split
    · simp only [List.foldl_cons, List.foldl_nil]
      rw [Nat.mul_zero, Nat.zero_add]
      exact digitChar_val n (by assumption)
    · rw [List.foldl_append]
      rw [ih (n / 10) (Nat.div_lt_self (by omega) (by omega))]
      simp only [List.foldl_cons, List.foldl_nil]
      rw [digitChar_val (n % 10) (Nat.mod_lt n (by omega))]
      omega

/-- takeWhile keeps an all-true prefix and stops at the first failure. -/
theorem takeWhile_append_of_all {α : Type} (p : α → Bool) (l₁ : List α) (y : α)
    (ys : List α) (h₁ : ∀ x ∈ l₁, p x = true) (hy : p y = false) :
    (l₁ ++ y :: ys).takeWhile p = l₁ := by
  induction l₁ with
  | nil => simp [List.takeWhile, hy]
  | cons a as ih =>
    have ha : p a = true := h₁ a (List.mem_cons_self a as)
    simp only [List.cons_append, List.takeWhile_cons, ha, if_true]
    rw [ih (fun x hx => h₁ x (List.mem_cons_of_mem a hx))]

/-- dropWhile drops an all-true prefix and stops at the first failure. -/
theorem dropWhile_append_of_all {α : Type} (p : α → Bool) (l₁ : List α) (y : α)
    (ys : List α) (h₁ : ∀ x ∈ l₁, p x = true) (hy : p y = false) :
    (l₁ ++ y :: ys).dropWhile p = y :: ys := by
  induction l₁ with
  | nil => simp [List.dropWhile, hy]
  | cons a as ih =>
    have ha : p a = true := h₁ a (List.mem_cons_self a as)
    simp only [List.cons_append, List.dropWhile_cons, ha, if_true]
    exact ih (fun x hx => h₁ x (List.mem_cons_of_mem a hx))

/-- digitsVal on a non-empty all-digit string is its decimal value. -/
theorem digitsVal_of_digits (l : Str) (hne : l ≠ [])
    (hd : ∀ c ∈ l, c.isDigit = true) :
    digitsVal l =
      some (l.foldl (fun acc c => 10 * acc + (c.toNat - '0'.toNat)) 0) := by
  unfold digitsVal
  have ht : l.takeWhile Char.isDigit = l := List.takeWhile_eq_self_iff.mpr hd
  simp only [ht, if_neg hne]

/-- digitsVal ignores everything from the first non-digit character on. -/
theorem digitsVal_append_space (l : Str) (hne : l ≠ [])
    (hd : ∀ c ∈ l, c.isDigit = true) :
    digitsVal (l ++ [' ']) =
      some (l.foldl (fun acc c => 10 * acc + (c.toNat - '0'.toNat)) 0) := by
  unfold digitsVal
  have ht : (l ++ [' ']).takeWhile Char.isDigit = l :=
    takeWhile_append_of_all _ l ' ' [] hd (by decide)
  simp only [ht, if_neg hne]

/-- Index of the first occurrence of c when the search text is a c-free
prefix followed by c. -/
theorem charIndex_append_not_mem (c : Char) (l₁ l₂ : Str) (h : ∀ x ∈ l₁, x ≠ c) :
    charIndex c (l₁ ++ c :: l₂) = some l₁.length := by
  induction l₁ with
  | nil => simp [charIndex]
  | cons a as ih =>
    have ha : a ≠ c := h a (List.mem_cons_self a as)
    simp only [List.cons_append, charIndex, if_neg ha, List.append_eq]
    rw [ih (fun x hx => h x (List.mem_cons_of_mem a hx))]
    simp

/-- A string trivially matches at the start of itself plus a suffix. -/
theorem matchesAt_self_append (p rest : Str) : matchesAt p (p ++ rest) = true := by
  unfold matchesAt
  rw [List.take_left]
  simp

/-- A pattern starting with p cannot match at a character other than p. -/
theorem matchesAt_cons_ne (p : Char) (pr : Str) (x : Char) (t : Str) (h : x ≠ p) :
    matchesAt (p :: pr) (x :: t) = false := by
  unfold matchesAt
  simp only [List.length_cons, List.take_succ_cons, List.cons_beq_cons]
  simp [h]

/-- findSub locates a pattern placed right after a text that contains no
occurrence of the pattern's first character. -/
theorem findSub_at_end (p : Char) (pr l₁ : Str) (h : ∀ x ∈ l₁, x ≠ p) :
    findSub (p :: pr) (l₁ ++ p :: pr) = some l₁.length := by
  induction l₁ with
  | nil =>
    have hm := matchesAt_self_append (p :: pr) []
    rw [List.append_nil] at hm
    simp [findSub, hm]
  | cons a as ih =>
    have ha : a ≠ p := h a (List.mem_cons_self a as)
    simp only [List.cons_append, findSub, matchesAt_cons_ne p pr a _ ha,
      Bool.false_eq_true, if_false, List.append_eq]
    rw [ih (fun x hx => h x (List.mem_cons_of_mem a hx))]
    simp

/-- A decimal digit differs from any non-digit character. -/
theorem digit_ne_char (c : Char) (h : c.isDigit = true) (d : Char)
    (hd : d.isDigit = false) : c ≠ d := by
  intro he
  subst he
  simp [h] at hd

/-- Decimal digits are not whitespace. -/
theorem isDigit_isWhitespace_false (c : Char) (h : c.isDigit = true) :
    c.isWhitespace = false := by
  have h1 : c ≠ ' ' := digit_ne_char c h ' ' (by decide)
  have h2 : c ≠ '\t' := digit_ne_char c h '\t' (by decide)
  have h3 : c ≠ '\r' := digit_ne_char c h '\r' (by decide)
  have h4 : c ≠ '\n' := digit_ne_char c h '\n' (by decide)
  simp [Char.isWhitespace, h1, h2, h3, h4]

/-- stoiModel on a bare non-empty digit run returns its value. -/
theorem stoiModel_digits (l : Str) (hne : l ≠ [])
    (hd : ∀ c ∈ l, c.isDigit = true) :
    stoiModel l =
      some ((l.foldl (fun acc c => 10 * acc + (c.toNat - '0'.toNat)) 0 : Nat) : Int) := by
  cases l with
  | nil => exact absurd rfl hne
  | cons a as =>
    have ha : a.isDigit = true := hd a (List.mem_cons_self a as)
    have hws : a.isWhitespace = false := isDigit_isWhitespace_false a ha
    have hminus : ¬ a = '-' := digit_ne_char a ha '-' (by decide)
    have hplus : ¬ a = '+' := digit_ne_char a ha '+' (by decide)
    unfold stoiModel
    rw [List.dropWhile_cons]
    rw [hws]
    simp only [Bool.false_eq_true, if_false, if_neg hminus, if_neg hplus]
    rw [digitsVal_of_digits (a :: as) hne hd]
    simp

/-- stoiModel on a digit run followed by a space returns the run's value,
mirroring how std::stoi stops at the first non-digit. -/
theorem stoiModel_digits_space (l : Str) (hne : l ≠ [])
    (hd : ∀ c ∈ l, c.isDigit = true) :
    stoiModel (l ++ [' ']) =
      some ((l.foldl (fun acc c => 10 * acc + (c.toNat - '0'.toNat)) 0 : Nat) : Int) := by
  cases l with
  | nil => exact absurd rfl hne
  | cons a as =>
    have ha : a.isDigit = true := hd a (List.mem_cons_self a as)
    have hws : a.isWhitespace = false := isDigit_isWhitespace_false a ha
    have hminus : ¬ a = '-' := digit_ne_char a ha '-' (by decide)
    have hplus : ¬ a = '+' := digit_ne_char a ha '+' (by decide)
    unfold stoiModel
    rw [List.cons_append, List.dropWhile_cons]
    rw [hws]
    simp only [Bool.false_eq_true, if_false, if_neg hminus, if_neg hplus]
    have hrw : a :: (as ++ [' ']) = (a :: as) ++ [' '] := rfl
    rw [hrw, digitsVal_append_space (a :: as) hne hd]
    simp

/-- Parsing a serialized hunk header recovers the four numbers: the find
calls land on the four separators and the stoi calls read back the digit
runs (the second one tolerating the space std::stoi stops at). -/
theorem parseHunkHeader_digits (d₁ d₂ d₃ d₄ : Str)
    (h₁ : d₁ ≠ []) (hd₁ : ∀ c ∈ d₁, c.isDigit = true)
    (h₂ : d₂ ≠ []) (hd₂ : ∀ c ∈ d₂, c.isDigit = true)
    (h₃ : d₃ ≠ []) (hd₃ : ∀ c ∈ d₃, c.isDigit = true)
    (h₄ : d₄ ≠ []) (hd₄ : ∀ c ∈ d₄, c.isDigit = true) :
    parseHunkHeader
      ('@' :: '@' :: ' ' :: '-' ::
        (d₁ ++ (',' :: (d₂ ++ (' ' :: '+' ::
          (d₃ ++ (',' :: (d₄ ++ (' ' :: '@' :: '@' :: []))))))))) =
      .ok ((d₁.foldl (fun acc c => 10 * acc + (c.toNat - '0'.toNat)) 0 : Nat) : Int)
          ((d₂.foldl (fun acc c => 10 * acc + (c.toNat - '0'.toNat)) 0 : Nat) : Int)
          ((d₃.foldl (fun acc c => 10 * acc + (c.toNat - '0'.toNat)) 0 : Nat) : Int)
          ((d₄.foldl (fun acc c => 10 * acc + (c.toNat - '0'.toNat)) 0 : Nat) : Int) := by
  have hne_comma : ∀ x ∈ '-' :: d₁, x ≠ ',' := by
    intro x hx
    rcases List.mem_cons.mp hx with hx | hx
    · subst hx; decide
    · exact digit_ne_char x (hd₁ x hx) ',' (by decide)
  have hne_plus : ∀ x ∈ ',' :: (d₂ ++ [' ']), x ≠ '+' := by
    intro x hx
    rcases List.mem_cons.mp hx with hx | hx
    · subst hx; decide
    · rcases List.mem_append.mp hx with hx | hx
      · exact digit_ne_char x (hd₂ x hx) '+' (by decide)
      · simp only [List.mem_singleton] at hx; subst hx; decide
  have hne_comma2 : ∀ x ∈ '+' :: d₃, x ≠ ',' := by
    intro x hx
    rcases List.mem_cons.mp hx with hx | hx
    · subst hx; decide
    · exact digit_ne_char x (hd₃ x hx) ',' (by decide)
  have hne_space : ∀ x ∈ ',' :: d₄, x ≠ ' ' := by
    intro x hx
    rcases List.mem_cons.mp hx with hx | hx
    · subst hx; decide
    · exact digit_ne_char x (hd₄ x hx) ' ' (by decide)
  set hdr : Str :=
    '@' :: '@' :: ' ' :: '-' ::
      (d₁ ++ (',' :: (d₂ ++ (' ' :: '+' ::
        (d₃ ++ (',' :: (d₄ ++ (' ' :: '@' :: '@' :: [])))))))) with hhdr
  have find1 : findCharFrom hdr '-' (some 0) = some 3 := by
    simp only [findCharFrom]
    rw [List.drop_zero]
    have hidx := charIndex_append_not_mem '-' ['@', '@', ' ']
      (d₁ ++ (',' :: (d₂ ++ (' ' :: '+' ::
        (d₃ ++ (',' :: (d₄ ++ (' ' :: '@' :: '@' :: [])))))))) (by decide)
    rw [hhdr]
    rw [show ('@' :: '@' :: ' ' :: '-' ::
        (d₁ ++ (',' :: (d₂ ++ (' ' :: '+' ::
          (d₃ ++ (',' :: (d₄ ++ (' ' :: '@' :: '@' :: [])))))))) : Str) =
      ['@', '@', ' '] ++ '-' ::
        (d₁ ++ (',' :: (d₂ ++ (' ' :: '+' ::
          (d₃ ++ (',' :: (d₄ ++ (' ' :: '@' :: '@' :: [])))))))) from rfl]
    rw [hidx]
    simp
  have find2 : findCharFrom hdr ',' (some 3) = some (d₁.length + 4) := by
    simp only [findCharFrom]
    have hdrop : hdr.drop 3 =
        '-' :: (d₁ ++ (',' :: (d₂ ++ (' ' :: '+' ::
          (d₃ ++ (',' :: (d₄ ++ (' ' :: '@' :: '@' :: [])))))))) := rfl
    rw [hdrop]
    have hidx := charIndex_append_not_mem ',' ('-' :: d₁)
      (d₂ ++ (' ' :: '+' :: (d₃ ++ (',' :: (d₄ ++ (' ' :: '@' :: '@' :: []))))))
      hne_comma
    rw [show ('-' :: (d₁ ++ (',' :: (d₂ ++ (' ' :: '+' ::
        (d₃ ++ (',' :: (d₄ ++ (' ' :: '@' :: '@' :: []))))))))) =
      ('-' :: d₁) ++ ',' ::
        (d₂ ++ (' ' :: '+' :: (d₃ ++ (',' :: (d₄ ++ (' ' :: '@' :: '@' :: []))))))
      from rfl]
    rw [hidx]
    simp only [Option.map_some', List.length_cons, Option.some.injEq]
  have find3 : findCharFrom hdr '+' (some (d₁.length + 4)) =
      some (d₁.length + d₂.length + 6) := by
    simp only [findCharFrom]
    have hsplit : hdr = (['@', '@', ' ', '-'] ++ d₁) ++
        (',' :: (d₂ ++ (' ' :: '+' ::
          (d₃ ++ (',' :: (d₄ ++ (' ' :: '@' :: '@' :: []))))))) := by
      rw [hhdr]; simp
    have hlen : (['@', '@', ' ', '-'] ++ d₁).length = d₁.length + 4 := by
      simp [List.length_append]
    have hdrop : hdr.drop (d₁.length + 4) =
        ',' :: (d₂ ++ (' ' :: '+' ::
          (d₃ ++ (',' :: (d₄ ++ (' ' :: '@' :: '@' :: [])))))) := by
      rw [hsplit, ← hlen, List.drop_left]
    rw [hdrop]
    have hidx := charIndex_append_not_mem '+' (',' :: (d₂ ++ [' ']))
      (d₃ ++ (',' :: (d₄ ++ (' ' :: '@' :: '@' :: [])))) hne_plus
    have hform : (',' :: (d₂ ++ [' '])) ++ '+' ::
        (d₃ ++ (',' :: (d₄ ++ (' ' :: '@' :: '@' :: [])))) =
        ',' :: (d₂ ++ (' ' :: '+' ::
          (d₃ ++ (',' :: (d₄ ++ (' ' :: '@' :: '@' :: [])))))) := by
      simp
    rw [hform] at hidx
    rw [hidx]
    simp only [Option.map_some', List.length_cons, List.length_append,
      List.length_nil, Option.some.injEq]
    omega
  have find4 : findCharFrom hdr ',' (some (d₁.length + d₂.length + 6)) =
      some (d₁.length + d₂.length + d₃.length + 7) := by
    simp only [findCharFrom]
    have hsplit : hdr = (['@', '@', ' ', '-'] ++ d₁ ++ [','] ++ d₂ ++ [' ']) ++
        ('+' :: (d₃ ++ (',' :: (d₄ ++ (' ' :: '@' :: '@' :: []))))) := by
      rw [hhdr]; simp
    have hlen : (['@', '@', ' ', '-'] ++ d₁ ++ [','] ++ d₂ ++ [' ']).length =
        d₁.length + d₂.length + 6 := by
      simp [List.length_append]; omega
    have hdrop : hdr.drop (d₁.length + d₂.length + 6) =
        '+' :: (d₃ ++ (',' :: (d₄ ++ (' ' :: '@' :: '@' :: [])))) := by
      rw [hsplit, ← hlen, List.drop_left]
    rw [hdrop]
    have hidx := charIndex_append_not_mem ',' ('+' :: d₃)
      (d₄ ++ (' ' :: '@' :: '@' :: [])) hne_comma2
    rw [show ('+' :: (d₃ ++ (',' :: (d₄ ++ (' ' :: '@' :: '@' :: []))))) =
      ('+' :: d₃) ++ ',' :: (d₄ ++ (' ' :: '@' :: '@' :: [])) from rfl]
    rw [hidx]
    simp only [Option.map_some', List.length_cons, Option.some.injEq]
    omega
  have find5 : findStrFrom hdr (s2l " @@")
      (some (d₁.length + d₂.length + d₃.length + 7)) =
      some (d₁.length + d₂.length + d₃.length + d₄.length + 8) := by
    simp only [findStrFrom]
    have hsplit : hdr =
        (['@', '@', ' ', '-'] ++ d₁ ++ [','] ++ d₂ ++ [' ', '+'] ++ d₃) ++
        (',' :: (d₄ ++ (' ' :: '@' :: '@' :: []))) := by
      rw [hhdr]; simp
    have hlen : (['@', '@', ' ', '-'] ++ d₁ ++ [','] ++ d₂ ++ [' ', '+'] ++ d₃).length =
        d₁.length + d₂.length + d₃.length + 7 := by
      simp [List.length_append]; omega
    have hdrop : hdr.drop (d₁.length + d₂.length + d₃.length + 7) =
        ',' :: (d₄ ++ (' ' :: '@' :: '@' :: [])) := by
      rw [hsplit, ← hlen, List.drop_left]
    rw [hdrop]
    have hidx := findSub_at_end ' ' ('@' :: '@' :: []) (',' :: d₄) hne_space
    rw [show (s2l " @@") = (' ' :: '@' :: '@' :: []) from rfl]
    rw [show (',' :: (d₄ ++ (' ' :: '@' :: '@' :: []))) =
      (',' :: d₄) ++ (' ' :: '@' :: '@' :: []) from rfl]
    rw [hidx]
    simp only [Option.map_some', List.length_cons, Option.some.injEq]
    omega
  simp only [parseHunkHeader]
  rw [find1, find2, find3, find4, find5]
  simp only []
  have e1 : List.length d₁ + 4 - 3 - 1 = List.length d₁ := by omega
  have e2 : List.length d₁ + List.length d₂ + 6 - (List.length d₁ + 4) - 1 =
      List.length d₂ + 1 := by omega
  have e3 : List.length d₁ + List.length d₂ + List.length d₃ + 7 -
      (List.length d₁ + List.length d₂ + 6) - 1 = List.length d₃ := by omega
  have e4 : List.length d₁ + List.length d₂ + List.length d₃ + List.length d₄ + 8 -
      (List.length d₁ + List.length d₂ + List.length d₃ + 7) - 1 =
      List.length d₄ := by omega
  rw [e1, e2, e3, e4]
  have s1 : stoiModel (substr hdr (3 + 1) (List.length d₁)) =
      some ((d₁.foldl (fun acc c => 10 * acc + (c.toNat - '0'.toNat)) 0 : Nat) : Int) := by
    have hsub : substr hdr (3 + 1) (List.length d₁) = d₁ := by
      unfold substr
      rw [show List.drop (3 + 1) hdr = d₁ ++ (',' :: (d₂ ++ (' ' :: '+' ::
        (d₃ ++ (',' :: (d₄ ++ (' ' :: '@' :: '@' :: []))))))) from rfl]
      exact List.take_left d₁ _
    rw [hsub]
    exact stoiModel_digits d₁ h₁ hd₁
  have s2 : stoiModel (substr hdr (List.length d₁ + 4 + 1) (List.length d₂ + 1)) =
      some ((d₂.foldl (fun acc c => 10 * acc + (c.toNat - '0'.toNat)) 0 : Nat) : Int) := by
    have hplen : (['@', '@', ' ', '-'] ++ d₁ ++ [',']).length =
        List.length d₁ + 4 + 1 := by
      simp [List.length_append]
    have hsplit : hdr = (['@', '@', ' ', '-'] ++ d₁ ++ [',']) ++
        (d₂ ++ (' ' :: '+' :: (d₃ ++ (',' :: (d₄ ++ (' ' :: '@' :: '@' :: [])))))) := by
      rw [hhdr]; simp
    have hdrop : List.drop (List.length d₁ + 4 + 1) hdr =
        d₂ ++ (' ' :: '+' :: (d₃ ++ (',' :: (d₄ ++ (' ' :: '@' :: '@' :: []))))) := by
      rw [hsplit, ← hplen, List.drop_left]
    have hsub : substr hdr (List.length d₁ + 4 + 1) (List.length d₂ + 1) =
        d₂ ++ [' '] := by
      unfold substr
      rw [hdrop]
      rw [List.take_append 1]
      simp
    rw [hsub]
    exact stoiModel_digits_space d₂ h₂ hd₂
  have s3 : stoiModel (substr hdr (List.length d₁ + List.length d₂ + 6 + 1)
      (List.length d₃)) =
      some ((d₃.foldl (fun acc c => 10 * acc + (c.toNat - '0'.toNat)) 0 : Nat) : Int) := by
    have hplen : (['@', '@', ' ', '-'] ++ d₁ ++ [','] ++ d₂ ++ [' ', '+']).length =
        List.length d₁ + List.length d₂ + 6 + 1 := by
      simp [List.length_append]; omega
    have hsplit : hdr = (['@', '@', ' ', '-'] ++ d₁ ++ [','] ++ d₂ ++ [' ', '+']) ++
        (d₃ ++ (',' :: (d₄ ++ (' ' :: '@' :: '@' :: [])))) := by
      rw [hhdr]; simp
    have hdrop : List.drop (List.length d₁ + List.length d₂ + 6 + 1) hdr =
        d₃ ++ (',' :: (d₄ ++ (' ' :: '@' :: '@' :: []))) := by
      rw [hsplit, ← hplen, List.drop_left]
    have hsub : substr hdr (List.length d₁ + List.length d₂ + 6 + 1)
        (List.length d₃) = d₃ := by
      unfold substr
      rw [hdrop]
      exact List.take_left d₃ _
    rw [hsub]
    exact stoiModel_digits d₃ h₃ hd₃
  have s4 : stoiModel (substr hdr
      (List.length d₁ + List.length d₂ + List.length d₃ + 7 + 1) (List.length d₄)) =
      some ((d₄.foldl (fun acc c => 10 * acc + (c.toNat - '0'.toNat)) 0 : Nat) : Int) := by
    have hplen : (['@', '@', ' ', '-'] ++ d₁ ++ [','] ++ d₂ ++ [' ', '+'] ++ d₃ ++
        [',']).length = List.length d₁ + List.length d₂ + List.length d₃ + 7 + 1 := by
      simp [List.length_append]; omega
    have hsplit : hdr = (['@', '@', ' ', '-'] ++ d₁ ++ [','] ++ d₂ ++ [' ', '+'] ++
        d₃ ++ [',']) ++ (d₄ ++ (' ' :: '@' :: '@' :: [])) := by
      rw [hhdr]; simp
    have hdrop : List.drop (List.length d₁ + List.length d₂ + List.length d₃ + 7 + 1)
        hdr = d₄ ++ (' ' :: '@' :: '@' :: []) := by
      rw [hsplit, ← hplen, List.drop_left]
    have hsub : substr hdr (List.length d₁ + List.length d₂ + List.length d₃ + 7 + 1)
        (List.length d₄) = d₄ := by
      unfold substr
      rw [hdrop]
      exact List.take_left d₄ _
    rw [hsub]
    exact stoiModel_digits d₄ h₄ hd₄
  rw [s1, s2, s3, s4]

/-- On non-empty input splitLines is the getline loop. -/
theorem splitLines_eq_go (z : Str) (h : z ≠ []) : splitLines z = splitLinesGo [] z := by
  cases z with
  | nil => exact absurd rfl h
  | cons c cs => rfl

/-- One getline step on a newline-free line followed by a newline and the
remaining input. -/
theorem splitLinesGo_line (l : Str) :
    ∀ (acc rest : Str), (∀ c ∈ l, c ≠ '\n') →
      splitLinesGo acc (l ++ '\n' :: rest) =
        (acc.reverse ++ l) ::
          (match rest with | [] => [] | _ :: _ => splitLinesGo [] rest) := by
  induction l with
  | nil =>
    intro acc rest _
    cases rest with
    | nil => simp [splitLinesGo]
    | cons a b => simp [splitLinesGo]
  | cons c cs ih =>
    intro acc rest h
    have hc : c ≠ '\n' := h c (List.mem_cons_self c cs)
    show splitLinesGo acc (c :: (cs ++ '\n' :: rest)) = _
    rw [splitLinesGo.eq_def]
    simp only []
    rw [if_neg hc]
    rw [ih (c :: acc) rest (fun x hx => h x (List.mem_cons_of_mem c hx))]
    simp

/-- splitLines recovers the lines from a newline-terminated concatenation of
newline-free lines.  This is the inverse direction used by the serialize /
parse round trip. -/
theorem splitLines_flatten (ls : List Str)
    (h : ∀ l ∈ ls, ∀ c ∈ l, c ≠ '\n') :
    splitLines ((ls.map (fun l => l ++ ['\n'])).flatten) = ls := by
  induction ls with
  | nil => rfl
  | cons l rest ih =>
    have hl : ∀ c ∈ l, c ≠ '\n' := h l (List.mem_cons_self l rest)
    have hflat : ((l :: rest).map (fun x => x ++ ['\n'])).flatten =
        l ++ '\n' :: (rest.map (fun x => x ++ ['\n'])).flatten := by
      simp
    rw [hflat]
    have hne : l ++ '\n' :: (rest.map (fun x => x ++ ['\n'])).flatten ≠ [] := by
      simp
    rw [splitLines_eq_go _ hne]
    rw [splitLinesGo_line l [] _ hl]
    simp only [List.reverse_nil, List.nil_append]
    cases rest with
    | nil => simp
    | cons r rs =>
      have hne2 : ((r :: rs).map (fun x => x ++ ['\n'])).flatten ≠ [] := by
        simp
      obtain ⟨a, b, hab⟩ := List.exists_cons_of_ne_nil hne2
      rw [hab]
      show (l :: splitLinesGo [] (a :: b)) = l :: r :: rs
      rw [← splitLines_eq_go (a :: b) (List.cons_ne_nil a b)]
      rw [← hab]
      rw [ih (fun x hx => h x (List.mem_cons_of_mem l hx))]

/-- Printing a non-negative int is printing its Nat digits. -/
theorem intToChars_nonneg (i : Int) (h : 0 ≤ i) : intToChars i = natDigits i.toNat := by
  unfold intToChars
  rw [if_neg (by omega)]

/-- The serialized header of a well-formed hunk, in explicit character form. -/
theorem hunkHeaderStr_eq (h : DiffHunk) (hwf : wfHunk h = true) :
    hunkHeaderStr h =
      '@' :: '@' :: ' ' :: '-' ::
        (natDigits h.oldStart.toNat ++ (',' :: (natDigits h.oldCount.toNat ++
          (' ' :: '+' :: (natDigits h.newStart.toNat ++ (',' ::
            (natDigits h.newCount.toNat ++ (' ' :: '@' :: '@' :: [])))))))) := by
  simp only [wfHunk, Bool.and_eq_true, decide_eq_true_eq] at hwf
  obtain ⟨⟨⟨⟨ha, hb⟩, hc⟩, hd⟩, _⟩ := hwf
  unfold hunkHeaderStr
  rw [intToChars_nonneg h.oldStart (by omega), intToChars_nonneg h.oldCount hb,
    intToChars_nonneg h.newStart (by omega), intToChars_nonneg h.newCount hd]
  rfl

/-- Parsing the serialized header of a well-formed hunk recovers its four
numeric fields. -/
theorem parseHunkHeader_wf (h : DiffHunk) (hwf : wfHunk h = true) :
    parseHunkHeader (hunkHeaderStr h) =
      .ok h.oldStart h.oldCount h.newStart h.newCount := by
  have hwf' := hwf
  simp only [wfHunk, Bool.and_eq_true, decide_eq_true_eq] at hwf'
  obtain ⟨⟨⟨⟨ha, hb⟩, hc⟩, hd⟩, _⟩ := hwf'
  rw [hunkHeaderStr_eq h hwf]
  rw [parseHunkHeader_digits
    (natDigits h.oldStart.toNat) (natDigits h.oldCount.toNat)
    (natDigits h.newStart.toNat) (natDigits h.newCount.toNat)
    (natDigits_ne_nil _) (natDigits_all_digit _)
    (natDigits_ne_nil _) (natDigits_all_digit _)
    (natDigits_ne_nil _) (natDigits_all_digit _)
    (natDigits_ne_nil _) (natDigits_all_digit _)]
  rw [natDigits_foldl, natDigits_foldl, natDigits_foldl, natDigits_foldl]
  rw [Int.toNat_of_nonneg (by omega : (0 : Int) ≤ h.oldStart),
    Int.toNat_of_nonneg hb,
    Int.toNat_of_nonneg (by omega : (0 : Int) ≤ h.newStart),
    Int.toNat_of_nonneg hd]

/-- A serialized hunk header is recognized as one by the hunk loop. -/
theorem matchesAt_header (h : DiffHunk) :
    matchesAt (s2l "@@ ") (hunkHeaderStr h) = true :=
  matchesAt_self_append (s2l "@@ ")
    ('-' :: (intToChars h.oldStart ++ ([','] ++ (intToChars h.oldCount ++
      (s2l " +" ++ (intToChars h.newStart ++ ([','] ++ (intToChars h.newCount ++
        s2l " @@"))))))))

/-- A tagged diff line is never mistaken for a hunk header. -/
theorem matchesAt_tagged (l : Str) (ht : isTaggedLine l = true) :
    matchesAt (s2l "@@ ") l = false := by
  cases l with
  | nil => simp [isTaggedLine] at ht
  | cons c rest =>
    simp only [isTaggedLine, Bool.and_eq_true, Bool.or_eq_true, beq_iff_eq] at ht
    have hne : c ≠ '@' := by
      rcases ht.1 with (h | h) | h <;> subst h <;> decide
    exact matchesAt_cons_ne '@' ('@' :: ' ' :: []) c rest hne

/-- The hunk loop of parseDiff reconstructs every serialized hunk. -/
theorem parseHunks_serialized (hs : List DiffHunk)
    (hwf : ∀ h ∈ hs, wfHunk h = true) :
    parseHunks ((hs.map (fun h => hunkHeaderStr h :: h.lines)).flatten) = some hs := by
  induction hs with
  | nil => simp [parseHunks]
  | cons h t ih =>
    have hwfh : wfHunk h = true := hwf h (List.mem_cons_self h t)
    have htag : ∀ l ∈ h.lines, isTaggedLine l = true := by
      have := hwfh
      simp only [wfHunk, Bool.and_eq_true, List.all_eq_true] at this
      exact this.2
    have hptrue : ∀ l ∈ h.lines, (fun x => !matchesAt (s2l "@@ ") x) l = true := by
      intro l hl
      simp only [Bool.not_eq_true']
      exact matchesAt_tagged l (htag l hl)
    have hflat : ((h :: t).map (fun x => hunkHeaderStr x :: x.lines)).flatten =
        hunkHeaderStr h ::
          (h.lines ++ (t.map (fun x => hunkHeaderStr x :: x.lines)).flatten) := by
      simp
    rw [hflat]
    rw [parseHunks]
    rw [matchesAt_header h]
    simp only [Bool.not_true, Bool.false_eq_true, if_false]
    rw [parseHunkHeader_wf h hwfh]
    cases t with
    | nil =>
      have hbody : (h.lines ++ ([] : List Str)).takeWhile
          (fun x => !matchesAt (s2l "@@ ") x) = h.lines := by
        rw [List.append_nil]
        exact List.takeWhile_eq_self_iff.mpr hptrue
      have hrest : (h.lines ++ ([] : List Str)).dropWhile
          (fun x => !matchesAt (s2l "@@ ") x) = [] := by
        rw [List.append_nil]
        exact List.dropWhile_eq_nil_iff.mpr hptrue
      simp only [List.map_nil, List.flatten_nil]
      rw [hbody, hrest]
      simp [parseHunks]
    | cons h2 t2 =>
      have hflat2 : ((h2 :: t2).map (fun x => hunkHeaderStr x :: x.lines)).flatten =
          hunkHeaderStr h2 ::
            (h2.lines ++ (t2.map (fun x => hunkHeaderStr x :: x.lines)).flatten) := by
        simp
      have hpfalse : (fun x => !matchesAt (s2l "@@ ") x) (hunkHeaderStr h2) = false := by
        simp only [Bool.not_eq_false']
        exact matchesAt_header h2
      have hbody : (h.lines ++
          ((h2 :: t2).map (fun x => hunkHeaderStr x :: x.lines)).flatten).takeWhile
          (fun x => !matchesAt (s2l "@@ ") x) = h.lines := by
        rw [hflat2]
        exact takeWhile_append_of_all _ h.lines _ _ hptrue hpfalse
      have hrest : (h.lines ++
          ((h2 :: t2).map (fun x => hunkHeaderStr x :: x.lines)).flatten).dropWhile
          (fun x => !matchesAt (s2l "@@ ") x) =
          ((h2 :: t2).map (fun x => hunkHeaderStr x :: x.lines)).flatten := by
        rw [hflat2]
        have := dropWhile_append_of_all (fun x => !matchesAt (s2l "@@ ") x)
          h.lines (hunkHeaderStr h2)
          (h2.lines ++ (t2.map (fun x => hunkHeaderStr x :: x.lines)).flatten)
          hptrue hpfalse
        exact this
      rw [hbody, hrest]
      rw [ih (fun x hx => hwf x (List.mem_cons_of_mem h hx))]
      rfl

/-- A list that does not contain a character has no member equal to it. -/
theorem not_contains_ne (l : Str) (c : Char) (h : l.contains c = false) :
    ∀ x ∈ l, x ≠ c := by
  intro x hx he
  subst he
  simp at h
  exact h hx

/-- Serialized hunk headers contain no newline. -/
theorem hunkHeaderStr_no_newline (h : DiffHunk) (hwf : wfHunk h = true) :
    ∀ c ∈ hunkHeaderStr h, c ≠ '\n' := by
  rw [hunkHeaderStr_eq h hwf]
  intro c hc hne
  subst hne
  simp only [List.mem_cons, List.mem_append] at hc
  rcases hc with h1 | h1 | h1 | h1 | hc
  · exact absurd h1 (by decide)
  · exact absurd h1 (by decide)
  · exact absurd h1 (by decide)
  · exact absurd h1 (by decide)
  · rcases hc with h1 | h1
    · exact absurd (natDigits_all_digit _ _ h1) (by decide)
    · rcases h1 with h1 | h1
      · exact absurd h1 (by decide)
      · rcases h1 with h1 | h1
        · exact absurd (natDigits_all_digit _ _ h1) (by decide)
        · rcases h1 with h1 | h1
          · exact absurd h1 (by decide)
          · rcases h1 with h1 | h1
            · exact absurd h1 (by decide)
            · rcases h1 with h1 | h1
              · exact absurd (natDigits_all_digit _ _ h1) (by decide)
              · rcases h1 with h1 | h1
                · exact absurd h1 (by decide)
                · rcases h1 with h1 | h1
                  · exact absurd (natDigits_all_digit _ _ h1) (by decide)
                  · simp at h1

/-- Tagged diff lines of a well-formed hunk contain no newline. -/
theorem tagged_no_newline (l : Str) (ht : isTaggedLine l = true) :
    ∀ c ∈ l, c ≠ '\n' := by
  cases l with
  | nil => intro c hc; simp at hc
  | cons a rest =>
    simp only [isTaggedLine, Bool.and_eq_true, Bool.or_eq_true, beq_iff_eq,
      Bool.not_eq_true'] at ht
    intro c hc
    rcases List.mem_cons.mp hc with rfl | hc
    · rcases ht.1 with (h | h) | h <;> subst h <;> decide
    · exact not_contains_ne rest '\n' ht.2 c hc

/-- No serialized line of a well-formed FileDiff contains a newline. -/
theorem serializedLines_no_newline (d : FileDiff) (hwf : wfFileDiff d = true) :
    ∀ l ∈ serializedLines d, ∀ c ∈ l, c ≠ '\n' := by
  simp only [wfFileDiff, Bool.and_eq_true, Bool.not_eq_true',
    List.all_eq_true] at hwf
  obtain ⟨⟨hold, hnew⟩, hhunks⟩ := hwf
  intro l hl
  simp only [serializedLines, List.mem_cons] at hl
  rcases hl with rfl | rfl | hl
  · intro c hc
    rcases List.mem_append.mp hc with hc | hc
    · intro hne; subst hne; simp [s2l] at hc
    · exact not_contains_ne d.oldFile '\n' hold c hc
  · intro c hc
    rcases List.mem_append.mp hc with hc | hc
    · intro hne; subst hne; simp [s2l] at hc
    · exact not_contains_ne d.newFile '\n' hnew c hc
  · rw [List.mem_flatten] at hl
    obtain ⟨block, hblock, hlb⟩ := hl
    rw [List.mem_map] at hblock
    obtain ⟨h, hh, rfl⟩ := hblock
    have hwfh := hhunks h hh
    rcases List.mem_cons.mp hlb with rfl | hlb
    · exact hunkHeaderStr_no_newline h hwfh
    · have htag : isTaggedLine l = true := by
        have := hwfh
        simp only [wfHunk, Bool.and_eq_true, List.all_eq_true] at this
        exact this.2 l hlb
      exact tagged_no_newline l htag

/-! ## Claim theorems -/

/-- C9: for every line sequence x, computing the diff of x against itself
yields an empty hunk list. -/
theorem computeHunks_identical_nil (x : List Str) (contextLines : Int) :
    computeHunks x x contextLines = [] :=
  computeHunks_self x contextLines

/-- C3: createCommit called with an empty staged set fails (it returns the
empty hash, the source encoding of the EmptyCommit failure) and leaves the
whole commit state — HEAD, the object store and the branch ref — unchanged,
storing no object. -/
theorem createCommit_emptyStaged_failsUnchanged (sha256 : Str → Str)
    (author email timestamp : Str) (st : CommitState) (message : Str) :
    createCommit sha256 author email timestamp st message [] = ([], st) := rfl

/-- C2 (code bug): the string hashed by generateCommitHash is never the
serialization saveCommitObject writes (the former starts with a dummy tree
line, the latter with the commit header), and the hash preimage ignores the
file table entirely, contradicting the claim that the commit hash is the
hash of the commit record's own serialization including the file table. -/
theorem commitHash_preimage_differs_from_serialization :
    (∀ c : CommitInfo, generateCommitHashInput c ≠ saveCommitObjectContent c) ∧
    (∀ (c : CommitInfo) (fh : List (Str × Str)),
      generateCommitHashInput { c with fileHashes := fh } = generateCommitHashInput c) := by
  constructor
  · intro c h
    have ht : (generateCommitHashInput c).head? = some 't' := rfl
    have hc : (saveCommitObjectContent c).head? = some 'c' := rfl
    rw [h, hc] at ht
    simp at ht
  · intro c fh
    rfl

/-- C1 (code bug): the diff/patch round-trip law fails.  For the line
sequences a = A,B and b = A,X,Y the engine emits its hardcoded added-line
hunk, and applying the resulting diff back to a produces A,X,B instead
of b. -/
theorem diff_patch_roundTrip_fails :
    applyDiff (generateDiffFromStrings (s2l "A\nB") (s2l "A\nX\nY") 3) (s2l "A\nB") =
      some (s2l "A\nX\nB") ∧
    some (s2l "A\nX\nB") ≠ some (s2l "A\nX\nY") := by
  constructor
  · decide
  · decide

/-- C4 (code bug): after a file is scanned once as Untracked, a second
updateStatus with the file unchanged on disk reclassifies it as Modified,
because the scan keys on presence in the previous map instead of on the
emptiness of lastCommitHash; the specified rule requires Untracked. -/
theorem updateStatus_rescan_misclassifies_untracked :
    ((lookupA (updateStatus [(s2l "f.txt", s2l "h1")] []) (s2l "f.txt")).map
        FileInfo.status = some .untracked) ∧
    ((lookupA (updateStatus [(s2l "f.txt", s2l "h1")]
        (updateStatus [(s2l "f.txt", s2l "h1")] [])) (s2l "f.txt")).map
        FileInfo.status = some .modified) := by
  constructor
  · decide
  · decide

/-- C8 (code bug): staging then unstaging a never-committed file leaves it
Untracked, but a fresh updateStatus on the resulting state computes Modified
for it, so the two statuses disagree; the second half of the claim holds in
this run because both operations succeed. -/
theorem stage_unstage_vs_updateStatus_diverge :
    ((lookupA (unstageFile [(s2l "f.txt", s2l "h1")]
        (stageFile [(s2l "f.txt", s2l "h1")] [] (s2l "f.txt")).2 (s2l "f.txt")).2
        (s2l "f.txt")).map FileInfo.status = some .untracked) ∧
    ((lookupA (updateStatus [(s2l "f.txt", s2l "h1")]
        (unstageFile [(s2l "f.txt", s2l "h1")]
          (stageFile [(s2l "f.txt", s2l "h1")] [] (s2l "f.txt")).2 (s2l "f.txt")).2)
        (s2l "f.txt")).map FileInfo.status = some .modified) := by
  constructor
  · decide
  · decide

/-- C10 counterexample: the claim quantifies over every string s, but for
the empty string the two contents split into zero lines and one empty line
respectively, so the diff contains a hunk. -/
theorem trailingNewline_diff_nonempty_cex :
    (generateDiffFromStrings (s2l "") (s2l "\n") 3).hunks ≠ [] := by
  decide

/-- C10 (amended): for every non-empty string s that does not already end
in a newline, the diff between s and s followed by a single trailing newline
contains zero hunks, because line splitting discards the final newline. -/
theorem trailingNewline_diff_empty (s : Str) (contextLines : Int)
    (h1 : s ≠ []) (h2 : s.getLast? ≠ some '\n') :
    (generateDiffFromStrings s (s ++ ['\n']) contextLines).hunks = [] := by
  simp only [generateDiffFromStrings]
  rw [splitLines_append_newline s h1 h2]
  exact computeHunks_self _ _

/-- C10 witness: the amended statement applied to the one-character string a. -/
theorem trailingNewline_diff_empty_witness :
    s2l "a" ≠ [] ∧ (s2l "a").getLast? ≠ some '\n' ∧
    (generateDiffFromStrings (s2l "a") (s2l "a" ++ ['\n']) 3).hunks = [] :=
  ⟨by decide, by decide, trailingNewline_diff_empty (s2l "a") 3 (by decide) (by decide)⟩

/-- C7: for every well-formed FileDiff (newline-free header paths, 1-based
start positions, non-negative counts, tagged newline-free hunk lines),
parsing the serialized text form yields the diff back unchanged. -/
theorem parseDiff_diffToString_roundTrip (d : FileDiff) (hwf : wfFileDiff d = true) :
    parseDiff (diffToString d) = some d := by
  have hwf' := hwf
  simp only [wfFileDiff, Bool.and_eq_true, Bool.not_eq_true',
    List.all_eq_true] at hwf'
  obtain ⟨⟨hold, hnew⟩, hhunks⟩ := hwf'
  have hsplit : splitLines (diffToString d) = serializedLines d :=
    splitLines_flatten _ (serializedLines_no_newline d hwf)
  simp only [parseDiff]
  rw [hsplit]
  simp only [serializedLines]
  rw [if_neg (by simp)]
  simp only [List.getD_cons_zero, List.getD_cons_succ]
  rw [matchesAt_self_append (s2l "--- ") d.oldFile]
  rw [matchesAt_self_append (s2l "+++ ") d.newFile]
  simp only [if_true]
  rw [show List.drop 4 (s2l "--- " ++ d.oldFile) = d.oldFile from
    List.drop_left (s2l "--- ") d.oldFile]
  rw [show List.drop 4 (s2l "+++ " ++ d.newFile) = d.newFile from
    List.drop_left (s2l "+++ ") d.newFile]
  rw [show List.drop 2 ((s2l "--- " ++ d.oldFile) :: (s2l "+++ " ++ d.newFile) ::
    (d.hunks.map (fun h => hunkHeaderStr h :: h.lines)).flatten) =
    (d.hunks.map (fun h => hunkHeaderStr h :: h.lines)).flatten from rfl]
  rw [parseHunks_serialized d.hunks hhunks]
  rfl

/-- C7 witness: the round trip applied to a concrete two-hunk diff. -/
theorem parseDiff_diffToString_roundTrip_witness :
    wfFileDiff
      { oldFile := s2l "a.txt", newFile := s2l "b.txt",
        hunks := [{ oldStart := 1, oldCount := 2, newStart := 1, newCount := 3,
                    lines := [s2l " A", s2l "-B", s2l "+X", s2l " B"] },
                  { oldStart := 7, oldCount := 0, newStart := 8, newCount := 1,
                    lines := [s2l "+Z"] }] } = true ∧
    parseDiff (diffToString
      { oldFile := s2l "a.txt", newFile := s2l "b.txt",
        hunks := [{ oldStart := 1, oldCount := 2, newStart := 1, newCount := 3,
                    lines := [s2l " A", s2l "-B", s2l "+X", s2l " B"] },
                  { oldStart := 7, oldCount := 0, newStart := 8, newCount := 1,
                    lines := [s2l "+Z"] }] }) =
      some
      { oldFile := s2l "a.txt", newFile := s2l "b.txt",
        hunks := [{ oldStart := 1, oldCount := 2, newStart := 1, newCount := 3,
                    lines := [s2l " A", s2l "-B", s2l "+X", s2l " B"] },
                  { oldStart := 7, oldCount := 0, newStart := 8, newCount := 1,
                    lines := [s2l "+Z"] }] } :=
  ⟨by decide, parseDiff_diffToString_roundTrip _ (by decide)⟩

/-- C6 counterexample: a FileDiff listing its hunks in descending oldStart
order is replayed in list order by applyDiff, producing a different result
than replaying the same hunks in ascending oldStart order, so applyDiff does
not replay hunks in ascending oldStart order. -/
theorem applyDiff_order_counterexample :
    applyDiff
      { oldFile := s2l "a", newFile := s2l "b",
        hunks := [{ oldStart := 3, oldCount := 1, newStart := 4, newCount := 1,
                    lines := [s2l "+Z"] },
                  { oldStart := 1, oldCount := 1, newStart := 1, newCount := 2,
                    lines := [s2l "+X", s2l "+Y"] }] }
      (s2l "a\nb\nc") ≠
    applyDiffAscending
      { oldFile := s2l "a", newFile := s2l "b",
        hunks := [{ oldStart := 3, oldCount := 1, newStart := 4, newCount := 1,
                    lines := [s2l "+Z"] },
                  { oldStart := 1, oldCount := 1, newStart := 1, newCount := 2,
                    lines := [s2l "+X", s2l "+Y"] }] }
      (s2l "a\nb\nc") := by
  decide

/-- Sequential hunk application splits over list append. -/
theorem applyHunks_append (xs ys : List DiffHunk) (lines : List Str) :
    applyHunks (xs ++ ys) lines = (applyHunks xs lines).bind (fun l => applyHunks ys l) := by
  induction xs generalizing lines with
  | nil => rfl
  | cons h hs ih =>
    simp only [List.cons_append, applyHunks]
    cases applyHunk h lines with
    | none => rfl
    | some lines' => exact ih lines'

/-- C6 (amended): applyDiff replays hunks in the order they appear in the
FileDiff (not sorted by oldStart), checking each hunk against the current,
already-patched line buffer; as soon as some hunk's oldStart exceeds the
current line count the whole call fails and nothing is written back, so the
target content is left fully unchanged — all-or-nothing holds. -/
theorem applyDiff_listOrder_allOrNothing (d : FileDiff) (content : Str)
    (pre : List DiffHunk) (h : DiffHunk) (post : List DiffHunk) (ls : List Str)
    (hd : d.hunks = pre ++ h :: post)
    (hpre : applyHunks pre (splitLines content) = some ls)
    (hoob : (ls.length : Int) < h.oldStart) :
    applyDiff d content = none := by
  unfold applyDiff
  rw [hd, applyHunks_append, hpre]
  have hfail : applyHunk h ls = none := by
    unfold applyHunk
    rw [if_pos hoob]
  have hstep : (some ls).bind (fun l => applyHunks (h :: post) l) =
      applyHunks (h :: post) ls := rfl
  rw [hstep]
  have hnone : applyHunks (h :: post) ls = none := by
    simp only [applyHunks, hfail]
  rw [hnone]

/-- C6 witness: a two-hunk diff whose first hunk applies cleanly and whose
second hunk starts beyond the end of the patched buffer makes applyDiff fail
without writing. -/
theorem applyDiff_listOrder_allOrNothing_witness :
    ({ oldFile := s2l "a", newFile := s2l "b",
       hunks := [{ oldStart := 1, oldCount := 1, newStart := 1, newCount := 1,
                   lines := [s2l "+X"] },
                 { oldStart := 99, oldCount := 0, newStart := 99, newCount := 0,
                   lines := ([] : List Str) }] } : FileDiff).hunks =
      [{ oldStart := 1, oldCount := 1, newStart := 1, newCount := 1,
         lines := [s2l "+X"] }] ++
      { oldStart := 99, oldCount := 0, newStart := 99, newCount := 0,
        lines := ([] : List Str) } :: [] ∧
    applyHunks [{ oldStart := 1, oldCount := 1, newStart := 1, newCount := 1,
                  lines := [s2l "+X"] }] (splitLines (s2l "a\nb")) =
      some [s2l "X", s2l "b"] ∧
    (([s2l "X", s2l "b"].length : Int) <
      (99 : Int)) ∧
    applyDiff
      { oldFile := s2l "a", newFile := s2l "b",
        hunks := [{ oldStart := 1, oldCount := 1, newStart := 1, newCount := 1,
                    lines := [s2l "+X"] },
                  { oldStart := 99, oldCount := 0, newStart := 99, newCount := 0,
                    lines := ([] : List Str) }] }
      (s2l "a\nb") = none :=
  ⟨by decide, by decide, by decide,
    applyDiff_listOrder_allOrNothing _ _
      [{ oldStart := 1, oldCount := 1, newStart := 1, newCount := 1,
         lines := [s2l "+X"] }]
      { oldStart := 99, oldCount := 0, newStart := 99, newCount := 0,
        lines := ([] : List Str) }
      [] [s2l "X", s2l "b"] (by decide) (by decide) (by decide)⟩

/-- The getHistory loop, given that the first-parent chain from the current
hash is cs, returns cs truncated per the maxCount/count counters. -/
theorem getHistoryLoop_chain (store : List (Str × CommitInfo)) (maxCount : Nat) :
    ∀ (cs : List CommitInfo) (cur : Str) (count fuel : Nat),
      isFirstParentChain store cur cs = true → cs.length ≤ fuel →
      getHistoryLoop store maxCount fuel cur count =
        if maxCount = 0 then cs else cs.take (maxCount - count) := by
  intro cs
  induction cs with
  | nil =>
    intro cur count fuel hchain _
    have hcur : cur = [] := by
      simpa [isFirstParentChain] using hchain
    subst hcur
    cases fuel with
    | zero => simp [getHistoryLoop]
    | succ f => simp [getHistoryLoop]
  | cons c rest ih =>
    intro cur count fuel hchain hfuel
    cases fuel with
    | zero => simp at hfuel
    | succ f =>
      simp only [isFirstParentChain, Bool.and_eq_true, bne_iff_ne, ne_eq,
        beq_iff_eq] at hchain
      obtain ⟨⟨⟨hcur, hload⟩, hhash⟩, hrest⟩ := hchain
      rw [getHistoryLoop]
      rw [if_neg hcur]
      by_cases hcount : maxCount = 0 ∨ count < maxCount
      · rw [if_neg (not_not_intro hcount)]
        rw [hload]
        rw [if_neg (by rw [hhash]; exact hcur)]
        cases rest with
        | nil =>
          have hpar : c.parentHashes = [] := by simpa using hrest
          rw [if_pos hpar]
          rcases hcount with h0 | hlt
          · simp [h0]
          · rw [if_neg (by omega)]
            have : maxCount - count = (maxCount - count - 1) + 1 := by omega
            rw [this, List.take_succ_cons, List.take_nil]
        | cons c' rest' =>
          simp only [Bool.and_eq_true, bne_iff_ne, ne_eq] at hrest
          obtain ⟨hparne, hchain'⟩ := hrest
          rw [if_neg hparne]
          rw [ih (c.parentHashes.headD []) (count + 1) f hchain' (by simpa using hfuel)]
          rcases Nat.eq_zero_or_pos maxCount with h0 | hpos
          · simp [h0]
          · have hlt : count < maxCount := by
              rcases hcount with h0 | hlt
              · omega
              · exact hlt
            rw [if_neg (by omega), if_neg (by omega)]
            have : maxCount - count = (maxCount - (count + 1)) + 1 := by omega
            rw [this, List.take_succ_cons]
      · rw [if_pos hcount]
        push_neg at hcount
        rw [if_neg hcount.1]
        have : maxCount - count = 0 := by omega
        rw [this, List.take_zero]

/-- C5: whenever the commit store contains a finite first-parent chain cs
from HEAD down to a root commit, getHistory returns exactly cs, newest
first, truncated to maxCount entries when maxCount is positive and whole
when maxCount is zero; only first parents are followed (the chain predicate
constrains nothing but each commit's first parent). -/
theorem getHistory_firstParentChain (store : List (Str × CommitInfo))
    (head : Str) (cs : List CommitInfo) (maxCount fuel : Nat)
    (hchain : isFirstParentChain store head cs = true) (hfuel : cs.length ≤ fuel) :
    getHistory store head maxCount fuel =
      if maxCount = 0 then cs else cs.take maxCount := by
  unfold getHistory
  rw [getHistoryLoop_chain store maxCount cs head 0 fuel hchain hfuel]
  simp

/-- C5 witness: a three-commit store whose middle commit has a second parent
that is absent from the store; the chain predicate holds and the full history
is returned newest-first. -/
theorem getHistory_firstParentChain_witness :
    (isFirstParentChain
      [ (s2l "c3", { hash := s2l "c3", message := [], author := [], email := [],
                     timestamp := [], parentHashes := [s2l "c2", s2l "cX"],
                     fileHashes := [] }),
        (s2l "c2", { hash := s2l "c2", message := [], author := [], email := [],
                     timestamp := [], parentHashes := [s2l "c1"], fileHashes := [] }),
        (s2l "c1", { hash := s2l "c1", message := [], author := [], email := [],
                     timestamp := [], parentHashes := [], fileHashes := [] }) ]
      (s2l "c3")
      [ { hash := s2l "c3", message := [], author := [], email := [],
          timestamp := [], parentHashes := [s2l "c2", s2l "cX"], fileHashes := [] },
        { hash := s2l "c2", message := [], author := [], email := [],
          timestamp := [], parentHashes := [s2l "c1"], fileHashes := [] },
        { hash := s2l "c1", message := [], author := [], email := [],
          timestamp := [], parentHashes := [], fileHashes := [] } ] = true) ∧
    getHistory
      [ (s2l "c3", { hash := s2l "c3", message := [], author := [], email := [],
                     timestamp := [], parentHashes := [s2l "c2", s2l "cX"],
                     fileHashes := [] }),
        (s2l "c2", { hash := s2l "c2", message := [], author := [], email := [],
                     timestamp := [], parentHashes := [s2l "c1"], fileHashes := [] }),
        (s2l "c1", { hash := s2l "c1", message := [], author := [], email := [],
                     timestamp := [], parentHashes := [], fileHashes := [] }) ]
      (s2l "c3") 0 3 =
      [ { hash := s2l "c3", message := [], author := [], email := [],
          timestamp := [], parentHashes := [s2l "c2", s2l "cX"], fileHashes := [] },
        { hash := s2l "c2", message := [], author := [], email := [],
          timestamp := [], parentHashes := [s2l "c1"], fileHashes := [] },
        { hash := s2l "c1", message := [], author := [], email := [],
          timestamp := [], parentHashes := [], fileHashes := [] } ] := by
  constructor
  · decide
  · have := getHistory_firstParentChain
      [ (s2l "c3", { hash := s2l "c3", message := [], author := [], email := [],
                     timestamp := [], parentHashes := [s2l "c2", s2l "cX"],
                     fileHashes := [] }),
        (s2l "c2", { hash := s2l "c2", message := [], author := [], email := [],
                     timestamp := [], parentHashes := [s2l "c1"], fileHashes := [] }),
        (s2l "c1", { hash := s2l "c1", message := [], author := [], email := [],
                     timestamp := [], parentHashes := [], fileHashes := [] }) ]
      (s2l "c3")
      [ { hash := s2l "c3", message := [], author := [], email := [],
          timestamp := [], parentHashes := [s2l "c2", s2l "cX"], fileHashes := [] },
        { hash := s2l "c2", message := [], author := [], email := [],
          timestamp := [], parentHashes := [s2l "c1"], fileHashes := [] },
        { hash := s2l "c1", message := [], author := [], email := [],
          timestamp := [], parentHashes := [], fileHashes := [] } ]
      0 3 (by decide) (by decide)
    simpa using this

end Mimirion
